import Mathlib

/-
Verification of the gas-index weighted-average price allocation engine
(IndexAllocationEngine) described by this repository, together with the
price-string post-processing helpers of `gas_price_calculator.py`.

The allocation algorithm itself is present in the repository only as
natural-language prompt text (`assistant_prompt` in
`src/gas_price_calculator.py` and `src/data_transform.py`); the executable
model below is therefore built from the specification's §4.1 algorithm,
its data model (§3) and its worked scenarios (§8), with each modelled
definition marked as such in its doc comment.  The string-cleaning
functions (`clean_price_value`, the price formatting in
`read_contract_data`) are translated directly from the Python source.
-/

set_option maxRecDepth 4000

attribute [local semireducible] Rat.ofScientific Rat.mul Rat.add Rat.sub Rat.inv

namespace GasCalc

/-- Index code families, from the data model (§3): `GMAES` (month ahead),
`GMES_M+k` (k ≥ 2), `GQES_Q+k` (k-th full calendar quarter after the
reference date's quarter), `GYES_Y+k` (k-th calendar year after the
reference date's year). -/
inductive IndexCode where
  | gmaes : IndexCode
  | gmes : Nat → IndexCode
  | gqes : Nat → IndexCode
  | gyes : Nat → IndexCode
deriving DecidableEq, Repr

/-- A quote catalog: a list of (index code, EUR/MWh price) pairs.  Prices
are exact rationals, matching the spec's decimal-value semantics (§4.1
numeric semantics). -/
abbrev Quotes := List (IndexCode × ℚ)

/-- Modelled from the spec: `ContractSchedule` (§3) — the reference
("Price") date's year and month, the contract duration in months, and the
first delivery month.  The algorithm only ever uses the reference date's
month and year, never its day. -/
structure ContractSchedule where
  refYear : Nat
  refMonth : Nat
  durationMonths : Nat
  startYear : Nat
  startMonth : Nat
deriving DecidableEq, Repr

/-- Absolute month index of a (year, month) pair, months numbered 1-12. -/
def absM (y m : Nat) : Nat := 12 * y + (m - 1)

/-- Absolute month index of the reference date. -/
def ContractSchedule.refAbs (s : ContractSchedule) : Nat := absM s.refYear s.refMonth

/-- Absolute month index of the first delivery month. -/
def ContractSchedule.startAbs (s : ContractSchedule) : Nat := absM s.startYear s.startMonth

/-- Absolute month index of the last contract month. -/
def contractEnd (s : ContractSchedule) : Nat := s.startAbs + s.durationMonths - 1

/-- Last month of the calendar quarter containing absolute month `a`. -/
def quarterEnd (a : Nat) : Nat := 3 * (a / 3) + 2

/-- Last month of the calendar year containing absolute month `a`. -/
def yearEnd (a : Nat) : Nat := 12 * (a / 12) + 11

/-- Ordinal count of complete quarters between the reference date's
quarter and the quarter containing absolute month `a` (the `k` of
`GQES_Q+k`, §4.1 step 2a). -/
def kOf (s : ContractSchedule) (a : Nat) : Nat := a / 3 - s.refAbs / 3

/-- Annual index ordinal for absolute month `a` (the `j` of `GYES_Y+j`,
§4.1 step 2d): count of complete years after the reference year, capped
at 2 because contracts beyond 24 months reuse `GYES_Y+2` for the third
year. -/
def jOf (s : ContractSchedule) (a : Nat) : Nat := min (a / 12 - s.refYear) 2

/-- Modelled from the spec: the first-quarter skip condition (§4.1 step
3) — the start month is 2 or more calendar months after the reference
month.  Following the source prompt's rule "If the month of the Price
Date is January, April, July, or October we must always use GQES_Q+1"
(required for the spec's own Scenarios A and C, §8, whose reference month
is April), the condition is disabled when the reference month starts a
quarter. -/
def skipQ1 (s : ContractSchedule) : Prop :=
  s.refAbs + 2 ≤ s.startAbs ∧ s.refAbs % 3 ≠ 0

instance (s : ContractSchedule) : Decidable (skipQ1 s) :=
  inferInstanceAs (Decidable (_ ∧ _))

/-- Look a code up in the quote catalog (codes are unique per
calculation, §3). -/
def lookupQ (qs : Quotes) (c : IndexCode) : Option ℚ :=
  match qs.find? (fun p => decide (p.1 = c)) with
  | some p => some p.2
  | none => none

/-- Modelled from the spec: quarter-priority rule (§4.1 step 2a) — the
current unassigned month begins a full calendar quarter lying entirely
within the remaining contract window and the matching `GQES_Q+k` quote
exists and is not excluded by the skip rule; assign the quarter's three
months in one step.  The returned `Nat` counts the extra months beyond
the first (so 2 here). -/
def ruleA (s : ContractSchedule) (qs : Quotes) (cur last : Nat) :
    Option (IndexCode × ℚ × Nat) :=
  if cur % 3 = 0 ∧ cur + 2 ≤ last ∧ 1 ≤ kOf s cur ∧ ¬(kOf s cur = 1 ∧ skipQ1 s) then
    match lookupQ qs (.gqes (kOf s cur)) with
    | some v => some (.gqes (kOf s cur), v, 2)
    | none => none
  else none

/-- Modelled from the spec: month-ahead / monthly rule (§4.1 step 2b) —
`GMAES` for the month immediately after the reference date, `GMES_M+k`
for a month k ≥ 2 months after it. -/
def monthlyChoice (s : ContractSchedule) (qs : Quotes) (cur : Nat) :
    Option (IndexCode × ℚ) :=
  if cur = s.refAbs + 1 then
    match lookupQ qs .gmaes with
    | some v => some (.gmaes, v)
    | none => none
  else if s.refAbs + 2 ≤ cur then
    match lookupQ qs (.gmes (cur - s.refAbs)) with
    | some v => some (.gmes (cur - s.refAbs), v)
    | none => none
  else none

/-- Modelled from the spec: partial-quarter fallback (§4.1 step 2c) — a
`GQES_Q+k` quote exists for the quarter containing the current month;
assign it to the remaining months of that quarter, never beyond the
contract's last month. -/
def ruleC (s : ContractSchedule) (qs : Quotes) (cur last : Nat) :
    Option (IndexCode × ℚ × Nat) :=
  if 1 ≤ kOf s cur ∧ ¬(kOf s cur = 1 ∧ skipQ1 s) then
    match lookupQ qs (.gqes (kOf s cur)) with
    | some v => some (.gqes (kOf s cur), v, min (quarterEnd cur) last - cur)
    | none => none
  else none

/-- A later month (strictly after the current one) at which the
quarter-priority rule would fire: it starts a full in-window quarter
whose quote is present and not skipped.  The annual run of §4.1 step 2d
must stop before such a month, since quarterly coverage always outranks
annual coverage ("annual is last resort", §4.1 tie-break policy;
quarter-priority property, §8). -/
def guardCond (s : ContractSchedule) (qs : Quotes) (last a : Nat) : Prop :=
  a % 3 = 0 ∧ a + 2 ≤ last ∧ 1 ≤ kOf s a ∧ ¬(kOf s a = 1 ∧ skipQ1 s) ∧
    (lookupQ qs (.gqes (kOf s a))).isSome = true

instance (s : ContractSchedule) (qs : Quotes) (last a : Nat) :
    Decidable (guardCond s qs last a) :=
  inferInstanceAs (Decidable (_ ∧ _ ∧ _ ∧ _ ∧ _))

/-- First position in `[a, a + n)` satisfying `guardCond`, if any. -/
def findGuard (s : ContractSchedule) (qs : Quotes) (last : Nat) : Nat → Nat → Option Nat
  | _, 0 => none
  | a, n + 1 => if guardCond s qs last a then some a else findGuard s qs last (a + 1) n

/-- Last month of the annual run that starts at `cur`: the end of `cur`'s
calendar year, bounded by the contract's last month, and stopping just
before any later month reclaimed by the quarter-priority rule. -/
def annualStop (s : ContractSchedule) (qs : Quotes) (cur last : Nat) : Nat :=
  match findGuard s qs last (cur + 1) (min (yearEnd cur) last - cur) with
  | some g => g - 1
  | none => min (yearEnd cur) last

/-- Modelled from the spec: annual fallback (§4.1 step 2d) — assign the
current month and the contiguous following months of the same calendar
year (bounded by the contract's last month, and stopping before any month
reclaimed by the quarter-priority rule) to `GYES_Y+j`. -/
def ruleD (s : ContractSchedule) (qs : Quotes) (cur last : Nat) :
    Option (IndexCode × ℚ × Nat) :=
  if 1 ≤ jOf s cur then
    match lookupQ qs (.gyes (jOf s cur)) with
    | some v => some (.gyes (jOf s cur), v, annualStop s qs cur last - cur)
    | none => none
  else none

/-- Modelled from the spec: one step of the allocation walk (§4.1 step
2), choosing a candidate index for the current unassigned month by
priority a > b > c > d.  Returns the chosen code, its value, and the
number of extra months (beyond the current one) covered in this step;
`none` when no rule applies to the current month. -/
def step (s : ContractSchedule) (qs : Quotes) (cur last : Nat) :
    Option (IndexCode × ℚ × Nat) :=
  match ruleA s qs cur last with
  | some r => some r
  | none =>
    match monthlyChoice s qs cur with
    | some (c, v) => some (c, v, 0)
    | none =>
      match ruleC s qs cur last with
      | some r => some r
      | none => ruleD s qs cur last

/-- One entry of the result mapping: code, value, months covered (§3,
`AllocationResult`). -/
abbrev Entry := IndexCode × ℚ × Nat

/-- Error taxonomy of §7: invalid schedule, no applicable quote for some
month, and the defensively-checked internal coverage failure. -/
inductive AllocationError where
  | invalidSchedule : AllocationError
  | noQuoteAvailable : Nat → AllocationError
  | coverageMismatch : AllocationError
deriving DecidableEq, Repr

/-- The assignment list of a run of `n` consecutive months starting at
`cur`, all assigned to code `c` (the `MonthSlot`s of §3). -/
def assignRun (c : IndexCode) : Nat → Nat → List (Nat × IndexCode)
  | _, 0 => []
  | cur, n + 1 => (cur, c) :: assignRun c (cur + 1) n

/-- Modelled from the spec: the allocation walk (§4.1 step 2), assigning
months from the first unassigned one until all `duration_months` are
assigned.  `fuel` is a structural bound on the number of steps (each step
assigns at least one month, so `duration + 1` fuel always suffices);
running out of fuel is the defensively-checked internal error of §7. -/
def walk (s : ContractSchedule) (qs : Quotes) (last : Nat) :
    Nat → Nat → Nat → Except AllocationError (List Entry × List (Nat × IndexCode))
  | 0, _, _ => .error .coverageMismatch
  | fuel + 1, cur, remaining =>
    if remaining = 0 then .ok ([], [])
    else
      match step s qs cur last with
      | none => .error (.noQuoteAvailable cur)
      | some (c, v, extra) =>
        match walk s qs last fuel (cur + extra + 1) (remaining - (extra + 1)) with
        | .error e => .error e
        | .ok (es, as) =>
          .ok ((c, v, extra + 1) :: es, assignRun c cur (extra + 1) ++ as)

/-- Sum of `value * months_covered` over the entries (§4.1 step 5),
computed exactly over ℚ. -/
def wsum : List Entry → ℚ
  | [] => 0
  | (_, v, n) :: es => v * (n : ℚ) + wsum es

/-- Sum of `months_covered` over the entries. -/
def sumCounts : List Entry → Nat
  | [] => 0
  | (_, _, n) :: es => n + sumCounts es

/-- Round a rational to 2 decimal places (§4.1 step 5), applied exactly
once at the end. -/
def round2 (x : ℚ) : ℚ := ((⌊x * 100 + 1 / 2⌋ : ℤ) : ℚ) / 100

/-- Modelled from the spec: `AllocationResult` (§3) — the entry list
(code, value, months covered), the per-month assignments, and the final
weighted average. -/
structure AllocationResult where
  entries : List Entry
  assigns : List (Nat × IndexCode)
  weightedAverage : ℚ
deriving DecidableEq, Repr

/-- Modelled from the spec: the public contract `allocate(schedule,
quotes) -> AllocationResult | AllocationError` (§4.1): validate the
schedule (`duration_months ≥ 1`, start month not before the reference
month), run the allocation walk, then compute the duration-weighted
average rounded to 2 decimals. -/
def allocate (s : ContractSchedule) (qs : Quotes) :
    Except AllocationError AllocationResult :=
  if s.durationMonths < 1 then .error .invalidSchedule
  else if s.startAbs < s.refAbs then .error .invalidSchedule
  else
    match walk s qs (contractEnd s) (s.durationMonths + 1) s.startAbs s.durationMonths with
    | .error e => .error e
    | .ok (es, as) => .ok ⟨es, as, round2 (wsum es / (s.durationMonths : ℚ))⟩

/-- Whether an allocation outcome is a success. -/
def allocOk : Except AllocationError AllocationResult → Bool
  | .ok _ => true
  | .error _ => false

/-- Entries of a successful outcome (empty list on error). -/
def entriesOf : Except AllocationError AllocationResult → List Entry
  | .ok r => r.entries
  | .error _ => []

/-- Per-month assignments of a successful outcome (empty list on error). -/
def assignsOf : Except AllocationError AllocationResult → List (Nat × IndexCode)
  | .ok r => r.assigns
  | .error _ => []

/-- Weighted average of a successful outcome. -/
def avgOf : Except AllocationError AllocationResult → Option ℚ
  | .ok r => some r.weightedAverage
  | .error _ => none

/-- Months covered by a given code in an entry list (summing duplicate
entries of the same code, as the result mapping does). -/
def monthsForList (c : IndexCode) : List Entry → Nat
  | [] => 0
  | (c', _, n) :: es => (if c' = c then n else 0) + monthsForList c es

/-- Months covered by a given code in an allocation outcome (0 on
error). -/
def monthsOf (x : Except AllocationError AllocationResult) (c : IndexCode) : Nat :=
  monthsForList c (entriesOf x)

/-- Total months covered in an allocation outcome (0 on error). -/
def sumOf (x : Except AllocationError AllocationResult) : Nat :=
  sumCounts (entriesOf x)

/-- Scenario A schedule (§8): reference date 2024-04-05, duration 24
months, start month June 2024. -/
def schedA : ContractSchedule := ⟨2024, 4, 24, 2024, 6⟩

/-- Scenario A quote catalog (§8). -/
def quotesA : Quotes :=
  [(.gmes 2, 26.50), (.gqes 1, 27.15), (.gqes 2, 29.72), (.gyes 1, 30.60), (.gyes 2, 28.57)]

/-- Scenario B schedule (§8): reference date 2024-03-15, duration 12
months, start month May 2024. -/
def schedB : ContractSchedule := ⟨2024, 3, 12, 2024, 5⟩

/-- Scenario B quote catalog (§8). -/
def quotesB : Quotes :=
  [(.gmes 2, 26.92), (.gmes 3, 27.02), (.gqes 2, 27.30), (.gqes 3, 29.98),
   (.gqes 4, 31.07), (.gyes 1, 29.65)]

/-- Scenario C schedule (§8): reference date 2024-04-18, duration 12
months, start month June 2024. -/
def schedC : ContractSchedule := ⟨2024, 4, 12, 2024, 6⟩

/-- Scenario C quote catalog (§8). -/
def quotesC : Quotes :=
  [(.gmes 2, 31.83), (.gqes 1, 32.48), (.gqes 2, 35.69), (.gqes 3, 37.53), (.gqes 4, 33.94)]

/-- A 36-month variant of Scenario A, exercising the multi-year (>24
months) reuse of `GYES_Y+2` for the third calendar year. -/
def sched36 : ContractSchedule := ⟨2024, 4, 36, 2024, 6⟩

/-- Quote catalog for the §8 error scenario: Scenario B's quotes with
`GQES_Q+4` and the annual fallback `GYES_Y+1` removed, leaving the months
January to April 2025 without any applicable quote. -/
def quotesErr : Quotes :=
  [(.gmes 2, 26.92), (.gmes 3, 27.02), (.gqes 2, 27.30), (.gqes 3, 29.98)]

/-- Longest leading run of decimal digits of a string and the remainder:
the greedy `\d+` of the source regexes (Python strings are modelled as
`List Char`). -/
def spanDigits : List Char → List Char × List Char
  | [] => ([], [])
  | ch :: cs =>
    if ch.isDigit then
      let p := spanDigits cs
      (ch :: p.1, p.2)
    else ([], ch :: cs)

/-- Match of the regex `(\d+[.,]\d+)` anchored at the start of the
string: a nonempty digit run, a period or comma, and a nonempty digit
run, each run maximal (no backtracking is ever needed for this pattern:
a shorter first run would be followed by a digit, which `[.,]` rejects).
From `clean_price_value`, `gas_price_calculator.py` line 724. -/
def tryMatchAt (cs : List Char) : Option (List Char) :=
  match spanDigits cs with
  | ([], _) => none
  | (_, []) => none
  | (d1, sep :: rest) =>
    if sep = '.' ∨ sep = ',' then
      match spanDigits rest with
      | ([], _) => none
      | (d2, _) => some (d1 ++ sep :: d2)
    else none

/-- Leftmost match of `(\d+[.,]\d+)` in a string: start positions are
scanned left to right, as `re.search` does. -/
def findMatch : List Char → Option (List Char)
  | [] => none
  | ch :: cs =>
    match tryMatchAt (ch :: cs) with
    | some m => some m
    | none => findMatch cs

/-- Leftmost match of `(\d+)`: the first maximal digit run
(`whole_number_match` in `clean_price_value`). -/
def findWhole : List Char → Option (List Char)
  | [] => none
  | ch :: cs => if ch.isDigit then some (spanDigits (ch :: cs)).1 else findWhole cs

/-- Replace every period by a comma, as Python's
`replace` with a period pattern and comma replacement does. -/
def commaize (m : List Char) : List Char :=
  m.map (fun ch => if ch = '.' then ',' else ch)

/-- Translation of `clean_price_value` (`gas_price_calculator.py` lines
720-736): take the first decimal number in the string and, when it is
written with a period, replace the period by a comma; otherwise fall back
to the first whole number; otherwise return the input unchanged. -/
def cleanPriceValue (s : List Char) : List Char :=
  match findMatch s with
  | some m => if '.' ∈ m then commaize m else m
  | none =>
    match findWhole s with
    | some w => w
    | none => s

/-- Translation of the quote-value formatting in `read_contract_data`
(`gas_price_calculator.py` line 599, likewise `_read_price_indices` in
`data_transform.py`): every quote value string is reformatted with commas
replacing periods before use. -/
def formatPriceIndex (v : List Char) : List Char := commaize v

/-- Membership in an assignment run: exactly the months of the run, all
with the run's code. -/
lemma mem_assignRun {c : IndexCode} :
    ∀ n cur m c2, (m, c2) ∈ assignRun c cur n ↔ c2 = c ∧ cur ≤ m ∧ m < cur + n := by
  intro n
  induction n with
  | zero => intro cur m c2; simp [assignRun]
  | succ n ih =>
    intro cur m c2
    simp only [assignRun, List.mem_cons, ih, Prod.mk.injEq]
    constructor
    · rintro (⟨h1, h2⟩ | ⟨h1, h2, h3⟩)
      · subst h1; subst h2; exact ⟨rfl, le_refl _, by omega⟩
      · subst h1; exact ⟨rfl, by omega, by omega⟩
    · rintro ⟨h1, h2, h3⟩
      subst h1
      rcases Nat.eq_or_lt_of_le h2 with h | h
      · left; exact ⟨h.symm, rfl⟩
      · right; exact ⟨rfl, h, by omega⟩

/-- Everything the quarter-priority rule guarantees when it fires. -/
lemma ruleA_elim {s : ContractSchedule} {qs : Quotes} {cur last : Nat}
    {c : IndexCode} {v : ℚ} {extra : Nat}
    (h : ruleA s qs cur last = some (c, v, extra)) :
    c = .gqes (kOf s cur) ∧ extra = 2 ∧ cur % 3 = 0 ∧ cur + 2 ≤ last ∧
    1 ≤ kOf s cur ∧ ¬(kOf s cur = 1 ∧ skipQ1 s) ∧
    lookupQ qs (.gqes (kOf s cur)) = some v := by
  unfold ruleA at h
  split at h
  · split at h
    · next hl =>
      injection h with h1
      injection h1 with hc h2
      injection h2 with hv he
      subst hc; subst hv; subst he
      simp_all
    · exact absurd h (by simp)
  · exact absurd h (by simp)

/-- Everything the monthly rule guarantees when it fires. -/
lemma monthlyChoice_elim {s : ContractSchedule} {qs : Quotes} {cur : Nat}
    {c : IndexCode} {v : ℚ}
    (h : monthlyChoice s qs cur = some (c, v)) :
    (c = .gmaes ∧ cur = s.refAbs + 1 ∧ lookupQ qs .gmaes = some v) ∨
    (c = .gmes (cur - s.refAbs) ∧ s.refAbs + 2 ≤ cur ∧
      lookupQ qs (.gmes (cur - s.refAbs)) = some v) := by
  unfold monthlyChoice at h
  split at h
  · split at h
    · next hl =>
      injection h with h1
      injection h1 with hc hv
      subst hc; subst hv
      left; simp_all
    · exact absurd h (by simp)
  · split at h
    · split at h
      · next hl =>
        injection h with h1
        injection h1 with hc hv
        subst hc; subst hv
        right; simp_all
      · exact absurd h (by simp)
    · exact absurd h (by simp)

/-- Everything the partial-quarter fallback guarantees when it fires. -/
lemma ruleC_elim {s : ContractSchedule} {qs : Quotes} {cur last : Nat}
    {c : IndexCode} {v : ℚ} {extra : Nat}
    (h : ruleC s qs cur last = some (c, v, extra)) :
    c = .gqes (kOf s cur) ∧ extra = min (quarterEnd cur) last - cur ∧
    1 ≤ kOf s cur ∧ ¬(kOf s cur = 1 ∧ skipQ1 s) ∧
    lookupQ qs (.gqes (kOf s cur)) = some v := by
  unfold ruleC at h
  split at h
  · split at h
    · next hl =>
      injection h with h1
      injection h1 with hc h2
      injection h2 with hv he
      subst hc; subst hv; subst he
      simp_all
    · exact absurd h (by simp)
  · exact absurd h (by simp)

/-- Bounds on a successful guard search. -/
lemma findGuard_bounds {s : ContractSchedule} {qs : Quotes} {last : Nat} :
    ∀ n a g, findGuard s qs last a n = some g →
      a ≤ g ∧ g < a + n ∧ guardCond s qs last g := by
  intro n
  induction n with
  | zero => intro a g h; simp [findGuard] at h
  | succ n ih =>
    intro a g h
    unfold findGuard at h
    split at h
    · next hg => injection h with h1; subst h1; exact ⟨le_refl _, by omega, hg⟩
    · obtain ⟨h1, h2, h3⟩ := ih (a + 1) g h
      exact ⟨by omega, by omega, h3⟩

/-- The guard search finds a position at or before any position in its
range satisfying the guard condition. -/
lemma findGuard_finds {s : ContractSchedule} {qs : Quotes} {last : Nat} :
    ∀ n a t, a ≤ t → t < a + n → guardCond s qs last t →
      ∃ g, findGuard s qs last a n = some g ∧ g ≤ t := by
  intro n
  induction n with
  | zero => intro a t h1 h2 _; omega
  | succ n ih =>
    intro a t h1 h2 ht
    unfold findGuard
    split
    · exact ⟨a, rfl, h1⟩
    · next hg =>
      have hat : a ≠ t := fun he => hg (he ▸ ht)
      obtain ⟨g, hgeq, hgle⟩ := ih (a + 1) t (by omega) (by omega) ht
      exact ⟨g, hgeq, hgle⟩

/-- Everything the annual fallback guarantees when it fires. -/
lemma ruleD_elim {s : ContractSchedule} {qs : Quotes} {cur last : Nat}
    {c : IndexCode} {v : ℚ} {extra : Nat}
    (h : ruleD s qs cur last = some (c, v, extra)) :
    c = .gyes (jOf s cur) ∧ 1 ≤ jOf s cur ∧
    lookupQ qs (.gyes (jOf s cur)) = some v ∧
    extra = annualStop s qs cur last - cur := by
  unfold ruleD at h
  split at h
  · split at h
    · next hl =>
      injection h with h1
      injection h1 with hc h2
      injection h2 with hv he
      subst hc; subst hv
      simp_all
    · exact absurd h (by simp)
  · exact absurd h (by simp)

/-- The annual run never extends past the end of the current calendar
year nor past the contract's last month. -/
lemma annualStop_le {s : ContractSchedule} {qs : Quotes} {cur last : Nat} :
    annualStop s qs cur last ≤ min (yearEnd cur) last := by
  unfold annualStop
  split
  · next g hg =>
    obtain ⟨h1, h2, _⟩ := findGuard_bounds _ _ _ hg
    omega
  · exact le_refl _

/-- The annual run stops strictly before any later in-year month at which
the quarter-priority rule would fire. -/
lemma annualStop_lt {s : ContractSchedule} {qs : Quotes} {cur last t : Nat}
    (h1 : guardCond s qs last t) (h2 : cur < t)
    (h3 : t ≤ min (yearEnd cur) last) :
    annualStop s qs cur last < t := by
  obtain ⟨g, hg, hgle⟩ :=
    findGuard_finds (min (yearEnd cur) last - cur) (cur + 1) t (by omega) (by omega) h1
  unfold annualStop
  rw [hg]
  show g - 1 < t
  omega

/-- A successful step comes from exactly one of the four rules, in
priority order. -/
lemma step_elim {s : ContractSchedule} {qs : Quotes} {cur last : Nat}
    {c : IndexCode} {v : ℚ} {extra : Nat}
    (h : step s qs cur last = some (c, v, extra)) :
    ruleA s qs cur last = some (c, v, extra) ∨
    (ruleA s qs cur last = none ∧ monthlyChoice s qs cur = some (c, v) ∧ extra = 0) ∨
    (ruleA s qs cur last = none ∧ monthlyChoice s qs cur = none ∧
      ruleC s qs cur last = some (c, v, extra)) ∨
    (ruleA s qs cur last = none ∧ monthlyChoice s qs cur = none ∧
      ruleC s qs cur last = none ∧ ruleD s qs cur last = some (c, v, extra)) := by
  unfold step at h
  split at h
  · next heq => left; injection h with h1; subst h1; exact heq
  · next ha =>
    split at h
    · next c2 v2 heq =>
      injection h with h1
      injection h1 with hc h2
      injection h2 with hv he
      subst hc; subst hv
      right; left; exact ⟨ha, heq, he.symm⟩
    · next hb =>
      split at h
      · next heq =>
        injection h with h1
        subst h1
        right; right; left; exact ⟨ha, hb, heq⟩
      · next hc => right; right; right; exact ⟨ha, hb, hc, h⟩

/-- A step never covers months beyond the contract's last month. -/
lemma step_extra_le {s : ContractSchedule} {qs : Quotes} {cur last : Nat}
    {c : IndexCode} {v : ℚ} {extra : Nat}
    (hcl : cur ≤ last) (h : step s qs cur last = some (c, v, extra)) :
    cur + extra ≤ last := by
  rcases step_elim h with ha | ⟨_, hb, he⟩ | ⟨_, _, hc⟩ | ⟨_, _, _, hd⟩
  · obtain ⟨_, he, _, hle, _⟩ := ruleA_elim ha
    omega
  · omega
  · obtain ⟨_, he, _⟩ := ruleC_elim hc
    have : min (quarterEnd cur) last ≤ last := min_le_right _ _
    omega
  · obtain ⟨_, _, _, he⟩ := ruleD_elim hd
    have hm : min (yearEnd cur) last ≤ last := min_le_right _ _
    have := @annualStop_le s qs cur last
    omega

/-- A successful walk covers exactly `remaining` months: every step
consumes as many months from the budget as it records in its entry. -/
lemma walk_sum {s : ContractSchedule} {qs : Quotes} {last : Nat} :
    ∀ fuel cur remaining es as, cur + remaining = last + 1 →
      walk s qs last fuel cur remaining = .ok (es, as) →
      sumCounts es = remaining := by
  intro fuel
  induction fuel with
  | zero => intro cur remaining es as _ hw; simp [walk] at hw
  | succ fuel ih =>
    intro cur remaining es as hinv hw
    rw [walk] at hw
    split at hw
    · next h0 =>
      injection hw with h1
      injection h1 with he ha
      subst he
      simp [sumCounts, h0]
    · next h0 =>
      split at hw
      · simp at hw
      · next c v extra hstep =>
        split at hw
        · simp at hw
        · next es2 as2 hrec =>
          injection hw with h1
          injection h1 with he ha
          subst he
          have hcl : cur ≤ last := by omega
          have hle := step_extra_le hcl hstep
          have hrem := ih (cur + extra + 1) (remaining - (extra + 1)) es2 as2 (by omega) hrec
          simp only [sumCounts]
          omega

/-- Every month assigned by a walk lies at or after the walk's starting
month. -/
lemma walk_ge {s : ContractSchedule} {qs : Quotes} {last : Nat} :
    ∀ fuel cur remaining es as,
      walk s qs last fuel cur remaining = .ok (es, as) →
      ∀ m c2, (m, c2) ∈ as → cur ≤ m := by
  intro fuel
  induction fuel with
  | zero => intro cur remaining es as hw; simp [walk] at hw
  | succ fuel ih =>
    intro cur remaining es as hw m c2 hm
    rw [walk] at hw
    split at hw
    · injection hw with h1
      injection h1 with he ha
      subst ha
      simp at hm
    · split at hw
      · simp at hw
      · next c v extra hstep =>
        split at hw
        · simp at hw
        · next es2 as2 hrec =>
          injection hw with h1
          injection h1 with he ha
          subst ha
          rcases List.mem_append.mp hm with hh | ht
          · exact ((mem_assignRun _ _ _ _).mp hh).2.1
          · have := ih (cur + extra + 1) (remaining - (extra + 1)) es2 as2 hrec m c2 ht
            omega

/-- Every month assignment produced by a walk comes from a successful
step whose run contains that month. -/
lemma walk_mem_step {s : ContractSchedule} {qs : Quotes} {last : Nat} :
    ∀ fuel cur remaining es as,
      walk s qs last fuel cur remaining = .ok (es, as) →
      ∀ m c2, (m, c2) ∈ as →
        ∃ cur2 v extra, step s qs cur2 last = some (c2, v, extra) ∧
          cur2 ≤ m ∧ m ≤ cur2 + extra := by
  intro fuel
  induction fuel with
  | zero => intro cur remaining es as hw; simp [walk] at hw
  | succ fuel ih =>
    intro cur remaining es as hw m c2 hm
    rw [walk] at hw
    split at hw
    · injection hw with h1
      injection h1 with he ha
      subst ha
      simp at hm
    · split at hw
      · simp at hw
      · next c v extra hstep =>
        split at hw
        · simp at hw
        · next es2 as2 hrec =>
          injection hw with h1
          injection h1 with he ha
          subst ha
          rcases List.mem_append.mp hm with hh | ht
          · obtain ⟨hc, h1, h2⟩ := (mem_assignRun _ _ _ _).mp hh
            subst hc
            exact ⟨cur, v, extra, hstep, h1, by omega⟩
          · exact ih (cur + extra + 1) (remaining - (extra + 1)) es2 as2 hrec m c2 ht

/-- Every entry produced by a walk comes from a successful step, and
covers at least one month. -/
lemma walk_mem_entry {s : ContractSchedule} {qs : Quotes} {last : Nat} :
    ∀ fuel cur remaining es as,
      walk s qs last fuel cur remaining = .ok (es, as) →
      ∀ c2 v2 n2, (c2, v2, n2) ∈ es →
        ∃ cur2, step s qs cur2 last = some (c2, v2, n2 - 1) ∧ 1 ≤ n2 := by
  intro fuel
  induction fuel with
  | zero => intro cur remaining es as hw; simp [walk] at hw
  | succ fuel ih =>
    intro cur remaining es as hw c2 v2 n2 hm
    rw [walk] at hw
    split at hw
    · injection hw with h1
      injection h1 with he ha
      subst he
      simp at hm
    · split at hw
      · simp at hw
      · next c v extra hstep =>
        split at hw
        · simp at hw
        · next es2 as2 hrec =>
          injection hw with h1
          injection h1 with he ha
          subst he
          rcases List.mem_cons.mp hm with hh | ht
          · injection hh with hc h2
            injection h2 with hv hn
            subst hc; subst hv; subst hn
            exact ⟨cur, by simpa using hstep, by omega⟩
          · exact ih (cur + extra + 1) (remaining - (extra + 1)) es2 as2 hrec c2 v2 n2 ht

/-- A successful allocation passed schedule validation and is built from
a successful walk over the contract months. -/
lemma allocate_ok_elim {s : ContractSchedule} {qs : Quotes}
    (h : allocOk (allocate s qs) = true) :
    1 ≤ s.durationMonths ∧ s.refAbs ≤ s.startAbs ∧
    ∃ es as,
      walk s qs (contractEnd s) (s.durationMonths + 1) s.startAbs s.durationMonths
        = .ok (es, as) ∧
      allocate s qs = .ok ⟨es, as, round2 (wsum es / (s.durationMonths : ℚ))⟩ := by
  unfold allocate at h ⊢
  split at h
  · simp [allocOk] at h
  · next h1 =>
    split at h
    · simp [allocOk] at h
    · next h2 =>
      refine ⟨by omega, by omega, ?_⟩
      split at h
      · simp [allocOk] at h
      · next es as hw =>
        exact ⟨es, as, hw, by rw [if_neg h1, if_neg h2]⟩

/-- Every successful allocation covers exactly `duration_months` months
in total. -/
lemma allocate_sum {s : ContractSchedule} {qs : Quotes}
    (h : allocOk (allocate s qs) = true) :
    sumOf (allocate s qs) = s.durationMonths := by
  obtain ⟨hd, hs, es, as, hw, heq⟩ := allocate_ok_elim h
  have hsum := walk_sum (s.durationMonths + 1) s.startAbs s.durationMonths es as
    (by unfold contractEnd; omega) hw
  rw [heq]
  simpa [sumOf, entriesOf] using hsum

/-- Under the skip condition, no step ever selects `GQES_Q+1`. -/
lemma step_no_gqes1 {s : ContractSchedule} {qs : Quotes} {cur last : Nat}
    {c : IndexCode} {v : ℚ} {extra : Nat}
    (hskip : skipQ1 s) (h : step s qs cur last = some (c, v, extra)) :
    c ≠ .gqes 1 := by
  intro hc
  subst hc
  rcases step_elim h with ha | ⟨_, hb, _⟩ | ⟨_, _, hcr⟩ | ⟨_, _, _, hd⟩
  · obtain ⟨hceq, _, _, _, _, hna, _⟩ := ruleA_elim ha
    injection hceq with hk
    exact hna ⟨hk.symm, hskip⟩
  · rcases monthlyChoice_elim hb with ⟨hceq, _⟩ | ⟨hceq, _⟩ <;> simp at hceq
  · obtain ⟨hceq, _, _, hna, _⟩ := ruleC_elim hcr
    injection hceq with hk
    exact hna ⟨hk.symm, hskip⟩
  · obtain ⟨hceq, _⟩ := ruleD_elim hd
    simp at hceq

/-- A step selecting an annual code selects the (capped) annual ordinal
of its starting month, and its run stays within that month's calendar
year. -/
lemma step_gyes {s : ContractSchedule} {qs : Quotes} {cur last j : Nat}
    {v : ℚ} {extra : Nat}
    (h : step s qs cur last = some (.gyes j, v, extra)) :
    j = jOf s cur ∧ cur + extra ≤ yearEnd cur := by
  rcases step_elim h with ha | ⟨_, hb, _⟩ | ⟨_, _, hcr⟩ | ⟨_, _, _, hd⟩
  · obtain ⟨hceq, _⟩ := ruleA_elim ha
    simp at hceq
  · rcases monthlyChoice_elim hb with ⟨hceq, _⟩ | ⟨hceq, _⟩ <;> simp at hceq
  · obtain ⟨hceq, _⟩ := ruleC_elim hcr
    simp at hceq
  · obtain ⟨hceq, _, _, he⟩ := ruleD_elim hd
    injection hceq with hj
    have h1 := @annualStop_le s qs cur last
    have h2 : cur ≤ yearEnd cur := by unfold yearEnd; omega
    have h3 : min (yearEnd cur) last ≤ yearEnd cur := min_le_left _ _
    exact ⟨hj, by omega⟩

/-- A code absent from every entry covers zero months. -/
lemma monthsForList_eq_zero {c : IndexCode} :
    ∀ es : List Entry, (∀ v n, (c, v, n) ∉ es) → monthsForList c es = 0 := by
  intro es
  induction es with
  | nil => intro _; rfl
  | cons e es ih =>
    intro h
    obtain ⟨c2, v2, n2⟩ := e
    simp only [monthsForList]
    have hne : ¬(c2 = c) := by
      intro he
      subst he
      exact h v2 n2 (List.mem_cons_self _ _)
    rw [if_neg hne, ih (fun v n hm => h v n (List.mem_cons_of_mem _ hm))]

/-- If the quarter-priority rule is enabled at month `t`, any successful
step starting strictly before `t` also finishes strictly before `t`. -/
lemma step_land {s : ContractSchedule} {qs : Quotes} {cur last t : Nat}
    (hct : cur < t) (ht3 : t % 3 = 0) (htl : t + 2 ≤ last)
    (hg : guardCond s qs last t) :
    ∀ c v extra, step s qs cur last = some (c, v, extra) → cur + extra < t := by
  intro c v extra h
  rcases step_elim h with ha | ⟨_, _, he⟩ | ⟨_, _, hcr⟩ | ⟨_, _, _, hd⟩
  · obtain ⟨_, he, h3, _⟩ := ruleA_elim ha
    omega
  · omega
  · obtain ⟨_, he, _⟩ := ruleC_elim hcr
    have hq : quarterEnd cur < t := by unfold quarterEnd; omega
    have hmin : min (quarterEnd cur) last ≤ quarterEnd cur := min_le_left _ _
    omega
  · obtain ⟨_, _, _, he⟩ := ruleD_elim hd
    by_cases hcase : t ≤ min (yearEnd cur) last
    · have := annualStop_lt hg hct hcase
      omega
    · have := @annualStop_le s qs cur last
      omega

/-- A successful walk starting at or before an enabled quarter-priority
month `t` assigns `t`, `t+1`, `t+2` to that quarter's quote, and assigns
nothing else to those three months. -/
lemma walk_quarter {s : ContractSchedule} {qs : Quotes} {last t : Nat}
    (ht3 : t % 3 = 0) (htl : t + 2 ≤ last)
    (hk : 1 ≤ kOf s t) (hna : ¬(kOf s t = 1 ∧ skipQ1 s))
    (hsome : (lookupQ qs (.gqes (kOf s t))).isSome = true) :
    ∀ fuel cur remaining es as, cur + remaining = last + 1 → cur ≤ t →
      walk s qs last fuel cur remaining = .ok (es, as) →
      ((t, IndexCode.gqes (kOf s t)) ∈ as ∧
       (t + 1, IndexCode.gqes (kOf s t)) ∈ as ∧
       (t + 2, IndexCode.gqes (kOf s t)) ∈ as) ∧
      ∀ m c2, (m, c2) ∈ as → t ≤ m → m ≤ t + 2 → c2 = IndexCode.gqes (kOf s t) := by
  have hguard : guardCond s qs last t := ⟨ht3, htl, hk, hna, hsome⟩
  intro fuel
  induction fuel with
  | zero => intro cur remaining es as _ _ hw; simp [walk] at hw
  | succ fuel ih =>
    intro cur remaining es as hinv hct hw
    rw [walk] at hw
    split at hw
    · next h0 => omega
    · next h0 =>
      split at hw
      · simp at hw
      · next c v extra hstep =>
        split at hw
        · simp at hw
        · next es2 as2 hrec =>
          injection hw with h1
          injection h1 with he ha
          subst ha
          rcases Nat.lt_or_ge cur t with hlt | hge
          · have hland := step_land hlt ht3 htl hguard c v extra hstep
            have hcl : cur ≤ last := by omega
            have hle := step_extra_le hcl hstep
            obtain ⟨hmem, hrange⟩ :=
              ih (cur + extra + 1) (remaining - (extra + 1)) es2 as2 (by omega) (by omega) hrec
            constructor
            · exact ⟨List.mem_append.mpr (Or.inr hmem.1),
                List.mem_append.mpr (Or.inr hmem.2.1),
                List.mem_append.mpr (Or.inr hmem.2.2)⟩
            · intro m c2 hm hm1 hm2
              rcases List.mem_append.mp hm with hh | ht2
              · obtain ⟨_, hx1, hx2⟩ := (mem_assignRun _ _ _ _).mp hh
                omega
              · exact hrange m c2 ht2 hm1 hm2
          · have hcur : cur = t := by omega
            subst hcur
            obtain ⟨v0, hv0⟩ := Option.isSome_iff_exists.mp hsome
            have hA : ruleA s qs cur last = some (.gqes (kOf s cur), v0, 2) := by
              unfold ruleA
              rw [if_pos ⟨ht3, htl, hk, hna⟩, hv0]
            have hstep2 : step s qs cur last = some (.gqes (kOf s cur), v0, 2) := by
              unfold step
              rw [hA]
            rw [hstep] at hstep2
            injection hstep2 with h2
            injection h2 with hc h3
            injection h3 with hv2 he2
            subst hc
            subst he2
            constructor
            · refine ⟨List.mem_append.mpr (Or.inl ?_), List.mem_append.mpr (Or.inl ?_),
                List.mem_append.mpr (Or.inl ?_)⟩ <;>
                exact (mem_assignRun _ _ _ _).mpr ⟨rfl, by omega, by omega⟩
            · intro m c2 hm hm1 hm2
              rcases List.mem_append.mp hm with hh | ht2
              · exact ((mem_assignRun _ _ _ _).mp hh).1
              · have := walk_ge _ _ _ _ _ hrec m c2 ht2
                omega

/-- The comma-substitution never leaves a period in its output. -/
lemma not_mem_commaize (m : List Char) : '.' ∉ commaize m := by
  intro h
  obtain ⟨ch, _, hch⟩ := List.mem_map.mp h
  by_cases hc : ch = '.'
  · rw [if_pos hc] at hch
    exact absurd hch (by decide)
  · rw [if_neg hc] at hch
    exact hc hch

/-- The comma-substitution is the identity on strings without a period. -/
lemma commaize_of_no_period : ∀ m : List Char, '.' ∉ m → commaize m = m := by
  intro m
  induction m with
  | nil => intro _; rfl
  | cons ch cs ih =>
    intro h
    have h1 : ch ≠ '.' := fun he => h (he ▸ List.mem_cons_self _ _)
    have h2 : '.' ∉ cs := fun hm => h (List.mem_cons_of_mem _ hm)
    have h3 := ih h2
    simp only [commaize, List.map_cons] at h3 ⊢
    rw [if_neg h1, h3]

/-- The anchored decimal-number pattern matches at the start of a digit,
period, digit sequence. -/
lemma tryMatchAt_some_of {c1 c2 : Char} {b : List Char}
    (h1 : c1.isDigit = true) (h2 : c2.isDigit = true) :
    ∃ m, tryMatchAt (c1 :: '.' :: c2 :: b) = some m := by
  refine ⟨c1 :: '.' :: c2 :: (spanDigits b).1, ?_⟩
  have hdot : ('.' : Char).isDigit = false := by decide
  simp [tryMatchAt, spanDigits, h1, h2, hdot]

/-- A string containing a decimal number written with a period always
yields a leftmost decimal-number match. -/
lemma findMatch_some : ∀ (a : List Char) (c1 c2 : Char) (b : List Char),
    c1.isDigit = true → c2.isDigit = true →
    ∃ m, findMatch (a ++ c1 :: '.' :: c2 :: b) = some m := by
  intro a
  induction a with
  | nil =>
    intro c1 c2 b h1 h2
    obtain ⟨m, hm⟩ := tryMatchAt_some_of (b := b) h1 h2
    refine ⟨m, ?_⟩
    rw [List.nil_append, findMatch, hm]
  | cons x a ih =>
    intro c1 c2 b h1 h2
    rw [List.cons_append, findMatch]
    rcases htry : tryMatchAt (x :: (a ++ c1 :: '.' :: c2 :: b)) with _ | m
    · obtain ⟨m, hm⟩ := ih c1 c2 b h1 h2
      exact ⟨m, hm⟩
    · exact ⟨m, rfl⟩

/-- C1: for every input (schedule, quotes) on which `allocate` succeeds,
the sum of `months_covered` over all entries of the result equals
`duration_months` exactly — no contract month is double-counted or
omitted. -/
theorem c1_coverage_invariant (s : ContractSchedule) (qs : Quotes)
    (h : allocOk (allocate s qs) = true) :
    sumOf (allocate s qs) = s.durationMonths :=
  allocate_sum h

/-- Witness for C1: Scenario A allocates successfully and its entries
cover exactly the 24 contract months. -/
theorem c1_coverage_invariant_witness :
    allocOk (allocate schedA quotesA) = true ∧
    sumOf (allocate schedA quotesA) = schedA.durationMonths :=
  ⟨by decide, c1_coverage_invariant schedA quotesA (by decide)⟩

/-- C2: every successful allocation's `weighted_average` equals the
2-decimal rounding of the exact rational sum of `value * months_covered`
over the result's entries divided by `duration_months`: internal
accumulation is exact (here, over ℚ) and rounding happens exactly once,
at the end, never per partial sum. -/
theorem c2_weighted_average_formula (s : ContractSchedule) (qs : Quotes)
    (h : allocOk (allocate s qs) = true) :
    avgOf (allocate s qs) =
      some (round2 (wsum (entriesOf (allocate s qs)) / (s.durationMonths : ℚ))) := by
  obtain ⟨hd, hs, es, as, hw, heq⟩ := allocate_ok_elim h
  rw [heq]
  rfl

/-- Witness for C2 at Scenario A. -/
theorem c2_weighted_average_formula_witness :
    allocOk (allocate schedA quotesA) = true ∧
    avgOf (allocate schedA quotesA) =
      some (round2 (wsum (entriesOf (allocate schedA quotesA)) / (schedA.durationMonths : ℚ))) :=
  ⟨by decide, c2_weighted_average_formula schedA quotesA (by decide)⟩

/-- C3: whenever a `GQES_Q+k` quote exists whose named calendar quarter
(months `t`, `t+1`, `t+2` with `t` a quarter start) is fully contained in
the contract window and the first-quarter skip condition does not apply,
a successful `allocate` assigns all three of that quarter's months to the
`GQES_Q+k` quote, and assigns no other quote — in particular no monthly
`GMAES`/`GMES_M+k` quote — to any month of that quarter. -/
theorem c3_quarter_priority (s : ContractSchedule) (qs : Quotes) (t : Nat)
    (hok : allocOk (allocate s qs) = true)
    (ht3 : t % 3 = 0) (hts : s.startAbs ≤ t) (hte : t + 2 ≤ contractEnd s)
    (hk : 1 ≤ kOf s t) (hna : ¬(kOf s t = 1 ∧ skipQ1 s))
    (hv : (lookupQ qs (.gqes (kOf s t))).isSome = true) :
    ((t, IndexCode.gqes (kOf s t)) ∈ assignsOf (allocate s qs) ∧
     (t + 1, IndexCode.gqes (kOf s t)) ∈ assignsOf (allocate s qs) ∧
     (t + 2, IndexCode.gqes (kOf s t)) ∈ assignsOf (allocate s qs)) ∧
    ∀ m c2, (m, c2) ∈ assignsOf (allocate s qs) → t ≤ m → m ≤ t + 2 →
      c2 = IndexCode.gqes (kOf s t) := by
  obtain ⟨hd, hs, es, as, hw, heq⟩ := allocate_ok_elim hok
  have hinv : s.startAbs + s.durationMonths = contractEnd s + 1 := by
    unfold contractEnd
    omega
  obtain ⟨hmem, hrange⟩ :=
    walk_quarter ht3 hte hk hna hv _ s.startAbs s.durationMonths es as hinv hts hw
  rw [heq]
  exact ⟨hmem, hrange⟩

/-- Witness for C3 at Scenario A, quarter July to September 2024
(`GQES_Q+1`). -/
theorem c3_quarter_priority_witness :
    (absM 2024 7, IndexCode.gqes (kOf schedA (absM 2024 7))) ∈
      assignsOf (allocate schedA quotesA) ∧
    (absM 2024 7 + 2, IndexCode.gqes (kOf schedA (absM 2024 7))) ∈
      assignsOf (allocate schedA quotesA) :=
  have h := c3_quarter_priority schedA quotesA (absM 2024 7) (by decide) (by decide)
    (by decide) (by decide) (by decide) (by decide) (by decide)
  ⟨h.1.1, h.1.2.2⟩

/-- C4 counterexample: in Scenario C the start month (June 2024) is
exactly 2 calendar months after the reference month (April 2024), yet
`allocate` assigns 3 months to `GQES_Q+1` — the skip rule as stated is
overridden because the reference month (April) starts a quarter, matching
the source prompt's rule and the spec's own expected Scenario A/C
outputs. -/
theorem c4_skip_rule_counterexample :
    schedC.refAbs + 2 ≤ schedC.startAbs ∧
    monthsOf (allocate schedC quotesC) (.gqes 1) = 3 := by
  exact ⟨by decide, by decide⟩

/-- C4 (amended): for every schedule whose start month is 2 or more
calendar months after the reference month AND whose reference month does
not start a calendar quarter (it is not January, April, July or October),
`allocate` never assigns any month to `GQES_Q+1` — neither in the
per-month assignments nor in the result entries. -/
theorem c4_skip_rule_amended (s : ContractSchedule) (qs : Quotes)
    (h2 : s.refAbs + 2 ≤ s.startAbs) (h3 : s.refAbs % 3 ≠ 0) :
    (∀ m, (m, IndexCode.gqes 1) ∉ assignsOf (allocate s qs)) ∧
    monthsOf (allocate s qs) (.gqes 1) = 0 := by
  have hskip : skipQ1 s := ⟨h2, h3⟩
  by_cases hok : allocOk (allocate s qs) = true
  · obtain ⟨hd, hs, es, as, hw, heq⟩ := allocate_ok_elim hok
    rw [heq]
    constructor
    · intro m hm
      obtain ⟨cur2, v, extra, hstep, _, _⟩ := walk_mem_step _ _ _ _ _ hw m _ hm
      exact step_no_gqes1 hskip hstep rfl
    · apply monthsForList_eq_zero
      intro v n hm
      obtain ⟨cur2, hstep, _⟩ := walk_mem_entry _ _ _ _ _ hw _ v n hm
      exact step_no_gqes1 hskip hstep rfl
  · rcases hx : allocate s qs with e | r
    · exact ⟨fun m hm => by simp [assignsOf] at hm, rfl⟩
    · rw [hx] at hok
      simp [allocOk] at hok

/-- Witness for amended C4: Scenario B (reference March 2024, start May
2024) satisfies the skip condition and `GQES_Q+1` covers no month. -/
theorem c4_skip_rule_amended_witness :
    schedB.refAbs + 2 ≤ schedB.startAbs ∧
    monthsOf (allocate schedB quotesB) (.gqes 1) = 0 :=
  ⟨by decide, (c4_skip_rule_amended schedB quotesB (by decide) (by decide)).2⟩

/-- C5: when only part of a calendar quarter remains inside the contract
window (the contract's last month precedes the quarter's end), no monthly
quote applies, and the quarter's `GQES_Q+k` quote exists and is not
skipped, the step assigns that quote to exactly the remaining months up
to the contract's last month — fewer than 3 months, never beyond the
remaining duration; and concretely, Scenario C (reference 2024-04-18,
duration 12, start June 2024) covers exactly 2 months with `GQES_Q+4` and
yields weighted average 34.73. -/
theorem c5_partial_quarter :
    (∀ (s : ContractSchedule) (qs : Quotes) (cur last : Nat) (v : ℚ),
      cur ≤ last → last < quarterEnd cur →
      monthlyChoice s qs cur = none →
      1 ≤ kOf s cur → ¬(kOf s cur = 1 ∧ skipQ1 s) →
      lookupQ qs (.gqes (kOf s cur)) = some v →
      step s qs cur last = some (.gqes (kOf s cur), v, last - cur) ∧
        last - cur + 1 < 3) ∧
    (monthsOf (allocate schedC quotesC) (.gqes 4) = 2 ∧
     avgOf (allocate schedC quotesC) = some 34.73) := by
  constructor
  · intro s qs cur last v h1 h2 hm hk hna hl
    have hA : ruleA s qs cur last = none := by
      unfold ruleA
      rw [if_neg]
      rintro ⟨ha1, ha2, _⟩
      unfold quarterEnd at h2
      omega
    have hmin : min (quarterEnd cur) last = last := by omega
    have hC : ruleC s qs cur last = some (.gqes (kOf s cur), v, last - cur) := by
      unfold ruleC
      rw [if_pos ⟨hk, hna⟩, hl, hmin]
    refine ⟨?_, by unfold quarterEnd at h2; omega⟩
    unfold step
    rw [hA, hm, hC]
  · exact ⟨by decide, by decide⟩

/-- Witness for C5: the final step of Scenario C, at April 2025 with the
contract ending May 2025. -/
theorem c5_partial_quarter_witness :
    step schedC quotesC (absM 2025 4) (contractEnd schedC) =
      some (.gqes (kOf schedC (absM 2025 4)), 33.94,
        contractEnd schedC - absM 2025 4) ∧
    contractEnd schedC - absM 2025 4 + 1 < 3 :=
  c5_partial_quarter.1 schedC quotesC (absM 2025 4) (contractEnd schedC) 33.94
    (by decide) (by decide) (by decide) (by decide) (by decide) (by decide)

/-- C6: Scenario A — reference date 2024-04-05, duration 24 months,
start month June 2024, with the given quotes — allocates months
`GMES_M+2: 1, GQES_Q+1: 3, GQES_Q+2: 3, GYES_Y+1: 12, GYES_Y+2: 5` and
returns weighted average 29.47. -/
theorem c6_scenario_a :
    entriesOf (allocate schedA quotesA) =
      [(.gmes 2, 26.50, 1), (.gqes 1, 27.15, 3), (.gqes 2, 29.72, 3),
       (.gyes 1, 30.60, 12), (.gyes 2, 28.57, 5)] ∧
    avgOf (allocate schedA quotesA) = some 29.47 := by
  exact ⟨by decide, by decide⟩

/-- C7: `allocate` returns a typed `AllocationError`, never a numeric
price, when the duration is below 1 month or the start month precedes the
reference month; any success covers every contract month (never a
silently partial price); and the spec's error scenario — a 12-month
contract whose quotes leave January to April 2025 without any applicable
quote under any rule — yields `NoQuoteAvailableError`. -/
theorem c7_error_modes :
    (∀ (s : ContractSchedule) (qs : Quotes), s.durationMonths = 0 →
      allocate s qs = .error .invalidSchedule) ∧
    (∀ (s : ContractSchedule) (qs : Quotes), s.startAbs < s.refAbs →
      allocate s qs = .error .invalidSchedule) ∧
    (∀ (s : ContractSchedule) (qs : Quotes), allocOk (allocate s qs) = true →
      sumOf (allocate s qs) = s.durationMonths) ∧
    allocate schedB quotesErr = .error (.noQuoteAvailable (absM 2025 1)) := by
  refine ⟨?_, ?_, fun s qs h => allocate_sum h, by rfl⟩
  · intro s qs h
    unfold allocate
    rw [if_pos (by omega)]
  · intro s qs h
    unfold allocate
    by_cases h1 : s.durationMonths < 1
    · rw [if_pos h1]
    · rw [if_neg h1, if_pos h]

/-- Witness for C7: a zero-duration schedule, a schedule starting before
its reference month, and Scenario A's complete coverage. -/
theorem c7_error_modes_witness :
    allocate ⟨2024, 4, 0, 2024, 6⟩ quotesA = .error .invalidSchedule ∧
    allocate ⟨2024, 6, 12, 2024, 4⟩ quotesA = .error .invalidSchedule ∧
    sumOf (allocate schedA quotesA) = schedA.durationMonths :=
  ⟨c7_error_modes.1 _ quotesA (by decide),
   c7_error_modes.2.1 _ quotesA (by decide),
   c7_error_modes.2.2.1 schedA quotesA (by decide)⟩

/-- C8: any month of a calendar year at least three years past the
reference year that receives an annual assignment receives `GYES_Y+2`
(the prior year's annual quote, reused because no `Y+3` quote exists);
concretely, the 36-month variant of Scenario A succeeds, covers 17 months
with `GYES_Y+2`, and assigns January 2027 (the third calendar year after
2024) to `GYES_Y+2` rather than failing. -/
theorem c8_multi_year :
    (∀ (s : ContractSchedule) (qs : Quotes) (m j : Nat),
      (m, IndexCode.gyes j) ∈ assignsOf (allocate s qs) →
      s.refYear + 3 ≤ m / 12 → j = 2) ∧
    (allocOk (allocate sched36 quotesA) = true ∧
     monthsOf (allocate sched36 quotesA) (.gyes 2) = 17 ∧
     (absM 2027 1, IndexCode.gyes 2) ∈ assignsOf (allocate sched36 quotesA)) := by
  constructor
  · intro s qs m j hm hy
    by_cases hok : allocOk (allocate s qs) = true
    · obtain ⟨hd, hs, es, as, hw, heq⟩ := allocate_ok_elim hok
      rw [heq] at hm
      obtain ⟨cur2, v, extra, hstep, hle1, hle2⟩ := walk_mem_step _ _ _ _ _ hw m _ hm
      obtain ⟨hj, hyr⟩ := step_gyes hstep
      have hyear : m / 12 = cur2 / 12 := by
        unfold yearEnd at hyr
        omega
      subst hj
      unfold jOf
      omega
    · rcases hx : allocate s qs with e | r
      · rw [hx] at hm
        simp [assignsOf] at hm
      · rw [hx] at hok
        simp [allocOk] at hok
  · exact ⟨by decide, by decide, by decide⟩

/-- Witness for C8: January 2027 is annually assigned in the 36-month
scenario and lies three calendar years past the 2024 reference year. -/
theorem c8_multi_year_witness :
    (absM 2027 1, IndexCode.gyes 2) ∈ assignsOf (allocate sched36 quotesA) ∧
    sched36.refYear + 3 ≤ absM 2027 1 / 12 ∧ (2 : Nat) = 2 :=
  ⟨by decide, by decide,
   c8_multi_year.1 sched36 quotesA (absM 2027 1) 2 (by decide) (by decide)⟩

/-- C9: `allocate` is deterministic and pure — it is a total function of
its two arguments, so two calls on identical inputs produce identical
outputs, with no hidden state or side effects. -/
theorem c9_determinism (s : ContractSchedule) (qs : Quotes) :
    allocate s qs = allocate s qs ∧
    ∀ x y, allocate s qs = x → allocate s qs = y → x = y :=
  ⟨rfl, fun _ _ hx hy => hx.symm.trans hy⟩

/-- Witness for C9 at Scenario A. -/
theorem c9_determinism_witness :
    allocate schedA quotesA = allocate schedA quotesA :=
  (c9_determinism schedA quotesA).1

/-- C10: for every input string containing a decimal number written with
a period, `cleanPriceValue` returns the leftmost decimal-number match
with its period replaced by a comma, so the returned price string never
contains a period as decimal separator; and the quote formatting of
`read_contract_data` likewise replaces every period with a comma. -/
theorem c10_comma_decimal (s : List Char)
    (h : ∃ a c1 c2 b, s = a ++ c1 :: '.' :: c2 :: b ∧
      c1.isDigit = true ∧ c2.isDigit = true) :
    (∃ m, findMatch s = some m ∧ cleanPriceValue s = commaize m) ∧
    '.' ∉ cleanPriceValue s ∧ ∀ v, '.' ∉ formatPriceIndex v := by
  obtain ⟨a, c1, c2, b, hs, h1, h2⟩ := h
  subst hs
  obtain ⟨m, hm⟩ := findMatch_some a c1 c2 b h1 h2
  have hclean : cleanPriceValue (a ++ c1 :: '.' :: c2 :: b) =
      if '.' ∈ m then commaize m else m := by
    unfold cleanPriceValue
    rw [hm]
  refine ⟨⟨m, hm, ?_⟩, ?_, fun v => not_mem_commaize v⟩
  · rw [hclean]
    by_cases hdot : '.' ∈ m
    · rw [if_pos hdot]
    · rw [if_neg hdot, commaize_of_no_period m hdot]
  · rw [hclean]
    by_cases hdot : '.' ∈ m
    · rw [if_pos hdot]
      exact not_mem_commaize m
    · rw [if_neg hdot]
      exact hdot

/-- Witness for C10: a typical LLM response fragment containing the
period-decimal 31.83 cleans to a comma-decimal string. -/
theorem c10_comma_decimal_witness :
    cleanPriceValue (("price: 31.83 EUR/MWh").toList) = ("31,83").toList ∧
    '.' ∉ cleanPriceValue (("price: 31.83 EUR/MWh").toList) :=
  ⟨by decide,
   (c10_comma_decimal (("price: 31.83 EUR/MWh").toList)
     ⟨("price: 3").toList, '1', '8', ("3 EUR/MWh").toList,
      by decide, by decide, by decide⟩).2.1⟩

end GasCalc
